import Mathlib

/-!
Verification of the deduplication subsystem of the internship-board
repository (`scripts/deduplicate.py`).

The Python module applies three dedup stages to a list of job listings:
a content-hash stage, a URL stage, and a fuzzy-matching stage, in that
order, then persists the result.  This file gives a shallow embedding of
the pure computation of each stage and of the orchestrator, and proves
the claimed properties about them.

Modelling conventions:
* Python `date` values are embedded as `Nat` (dates form a total order
  and the code only ever compares them; e.g. `2026-02-01` becomes
  `20260201`).
* Python `dict` (insertion-ordered, value-update keeps the key position)
  is embedded as an association list with positional update.
* `set[str]` / `set[int]` become `List String` membership / `Finset Nat`.
* Floats are embedded as exact rationals (`ℚ`).
-/

/-- The fields of the Pydantic `JobListing` model that the dedup
subsystem reads: `id`, `company`, `role`, `apply_url` (the code keys on
`str(listing.apply_url)`), `date_added`, and `locations`.  The remaining
fields of the model (category, sponsorship flags, `source`, …) are never
read by `scripts/deduplicate.py` and are elided. -/
structure JobListing where
  id : String
  company : String
  role : String
  apply_url : String
  date_added : Nat
  locations : List String := []
deriving DecidableEq, Repr, Inhabited

/-- Python `str.lower()` (on the ASCII range, the only one exercised
here): lowercase every character. -/
def pyLower (s : String) : String := ⟨s.data.map Char.toLower⟩

/-- Helper for `pySplit`: scan the character list, accumulating the
current (reversed) token in `acc`; whitespace ends the current token,
and empty fragments between consecutive whitespace are dropped. -/
def pySplitAux : List Char → List Char → List (List Char)
  | acc, [] => if acc = [] then [] else [acc.reverse]
  | acc, c :: cs =>
      if c.isWhitespace then
        if acc = [] then pySplitAux [] cs else acc.reverse :: pySplitAux [] cs
      else pySplitAux (c :: acc) cs

/-- Python `str.split()` with no argument: the maximal non-empty runs
of non-whitespace characters, in order. -/
def pySplit (s : String) : List String :=
  (pySplitAux [] s.data).map (fun cs => (⟨cs⟩ : String))

/-- First value stored under key `k` in an association list
(Python `seen[key]` after a `key in seen` check). -/
def lookupKey (k : String) : List (String × JobListing) → Option JobListing
  | [] => none
  | (k', v) :: rest => if k' = k then some v else lookupKey k rest

/-- Python `seen[key] = listing` on a key already present: the value is
replaced in place, the key keeps its original position. -/
def replaceKey (k : String) (v : JobListing) :
    List (String × JobListing) → List (String × JobListing)
  | [] => []
  | (k', v') :: rest =>
      if k' = k then (k', v) :: rest else (k', v') :: replaceKey k v rest

/-- One iteration of the `for listing in listings` loop shared by
`_dedup_by_content_hash` and `_dedup_by_url` (the two functions are
textually identical up to the grouping key, abstracted here as `key`):
if the key is already in `seen`, keep whichever of the stored and the
incoming listing has the strictly greater `date_added` (ties keep the
stored one) and count one removal; otherwise store the listing under its
key. -/
def keyStep (key : JobListing → String) (acc : List (String × JobListing) × Nat)
    (listing : JobListing) : List (String × JobListing) × Nat :=
  match lookupKey (key listing) acc.1 with
  | some existing =>
      if listing.date_added > existing.date_added then
        (replaceKey (key listing) listing acc.1, acc.2 + 1)
      else
        (acc.1, acc.2 + 1)
  | none => (acc.1 ++ [(key listing, listing)], acc.2)

/-- The keyed dedup loop: fold `keyStep` over the input starting from an
empty `seen` dict, then return `list(seen.values())` and the removal
count. -/
def dedupByKey (key : JobListing → String) (listings : List JobListing) :
    List JobListing × Nat :=
  let acc := listings.foldl (keyStep key) ([], 0)
  (acc.1.map Prod.snd, acc.2)

/-- Embedding of `_dedup_by_content_hash`: keyed dedup with `listing.id`
as the grouping key. -/
def dedup_by_content_hash (listings : List JobListing) : List JobListing × Nat :=
  dedupByKey (fun l => l.id) listings

/-- Embedding of `_dedup_by_url`: keyed dedup with
`str(listing.apply_url)` as the grouping key (exact string). -/
def dedup_by_url (listings : List JobListing) : List JobListing × Nat :=
  dedupByKey (fun l => l.apply_url) listings

/-- `set(title.lower().split())`: the set of lowercased,
whitespace-separated tokens of a string. -/
def tokenSet (title : String) : Finset String :=
  (pySplit (pyLower title)).toFinset

/-- Embedding of `_compute_token_overlap`: Jaccard similarity of the
token sets of the two titles, with the code's two early returns of `0.0`
(both token sets empty; union empty). -/
def compute_token_overlap (title_a title_b : String) : ℚ :=
  let tokens_a := tokenSet title_a
  let tokens_b := tokenSet title_b
  if tokens_a = ∅ ∧ tokens_b = ∅ then 0
  else
    let union := tokens_a ∪ tokens_b
    if union = ∅ then 0
    else ((tokens_a ∩ tokens_b).card : ℚ) / (union.card : ℚ)

/-- Length of a longest common subsequence of two character lists, with
explicit fuel so that the definition is structurally recursive (fuel
`a.length + b.length` always suffices: every step consumes at least one
character from the combined input). -/
def lcsLenAux : Nat → List Char → List Char → Nat
  | 0, _, _ => 0
  | _ + 1, [], _ => 0
  | _ + 1, _ :: _, [] => 0
  | fuel + 1, a :: as, b :: bs =>
      if a = b then lcsLenAux fuel as bs + 1
      else max (lcsLenAux fuel as (b :: bs)) (lcsLenAux fuel (a :: as) bs)

/-- Length of a longest common subsequence of two character lists. -/
def lcsLen (a b : List Char) : Nat := lcsLenAux (a.length + b.length) a b

/-- Python's `round` applied to the exact nonnegative rational `p / q`
(`q ≠ 0`): nearest integer, half to even. -/
def roundHalfEven (p q : Nat) : Nat :=
  if 2 * (p % q) < q then p / q
  else if q < 2 * (p % q) then p / q + 1
  else if p / q % 2 = 0 then p / q else p / q + 1

/-- Model of the third-party `thefuzz.fuzz.ratio` scorer used by
`_dedup_fuzzy` (the library is a dependency, not part of this
repository): the Indel-normalized similarity
`100 * 2*lcs(a,b) / (|a| + |b|)` rounded to the nearest integer (half to
even, as Python's `round`), and `100` when both strings are empty. -/
def fuzz_ratio_score (s1 s2 : String) : Nat :=
  let a := s1.data
  let b := s2.data
  if a.length + b.length = 0 then 100
  else roundHalfEven (100 * (2 * lcsLen a b)) (a.length + b.length)

/-- The fuzzy-duplicate test of `_dedup_fuzzy` on a pair of listings:
company similarity `fuzz.ratio` on lowercased company names strictly
above `90`, and role token overlap strictly above `0.8`. -/
def fuzzyMatch (x y : JobListing) : Prop :=
  90 < fuzz_ratio_score (pyLower x.company) (pyLower y.company) ∧
    (0.8 : ℚ) < compute_token_overlap x.role y.role

instance (x y : JobListing) : Decidable (fuzzyMatch x y) := by
  unfold fuzzyMatch; infer_instance

/-- The inner `for j in range(i + 1, len(listings))` loop of
`_dedup_fuzzy`, iterating over the remaining index list `js` with state
`(removed_indices, removed)`.  A `j` already removed or archived is
skipped; a pair failing either threshold is skipped; on a fuzzy
duplicate, if `listings[j].date_added >= listings[i].date_added` then
`i` is removed and the loop breaks, otherwise `j` is removed and the
loop continues. -/
def innerLoop (listings : List JobListing) (archived : List String) (i : Nat) :
    List Nat → Finset Nat × Nat → Finset Nat × Nat
  | [], acc => acc
  | j :: js, (rem, removed) =>
      if j ∈ rem then innerLoop listings archived i js (rem, removed)
      else if (listings.getD j default).id ∈ archived then
        innerLoop listings archived i js (rem, removed)
      else if fuzz_ratio_score (pyLower (listings.getD i default).company)
          (pyLower (listings.getD j default).company) ≤ 90 then
        innerLoop listings archived i js (rem, removed)
      else if compute_token_overlap (listings.getD i default).role
          (listings.getD j default).role ≤ (0.8 : ℚ) then
        innerLoop listings archived i js (rem, removed)
      else if (listings.getD j default).date_added ≥ (listings.getD i default).date_added then
        (insert i rem, removed + 1)
      else
        innerLoop listings archived i js (insert j rem, removed + 1)

/-- The outer `for i in range(len(listings))` loop of `_dedup_fuzzy`:
an `i` already removed or whose id is archived is skipped; otherwise the
inner loop runs over `range(i + 1, len(listings))`. -/
def outerLoop (listings : List JobListing) (archived : List String) :
    List Nat → Finset Nat × Nat → Finset Nat × Nat
  | [], acc => acc
  | i :: rest, (rem, removed) =>
      if i ∈ rem then outerLoop listings archived rest (rem, removed)
      else if (listings.getD i default).id ∈ archived then
        outerLoop listings archived rest (rem, removed)
      else
        outerLoop listings archived rest
          (innerLoop listings archived i
            (List.range' (i + 1) (listings.length - (i + 1))) (rem, removed))

/-- The final `removed_indices` set of `_dedup_fuzzy` (the first
component of the loop state after the outer loop finishes). -/
def fuzzyRemovedSet (listings : List JobListing) (archived : List String) : Finset Nat :=
  (outerLoop listings archived (List.range listings.length) (∅, 0)).1

/-- Embedding of `_dedup_fuzzy`: lists of length at most one are
returned unchanged with count `0`; otherwise the nested loops run and
the survivors are the listings whose index is not in `removed_indices`,
in input order, together with the removal counter. -/
def dedup_fuzzy (listings : List JobListing) (archived_hashes : List String) :
    List JobListing × Nat :=
  if listings.length ≤ 1 then (listings, 0)
  else
    let acc := outerLoop listings archived_hashes (List.range listings.length) (∅, 0)
    ((listings.enum.filter (fun p => p.1 ∉ acc.1)).map Prod.snd, acc.2)

/-- Embedding of `deduplicate_all` with the I/O abstracted away: the
listings stand for the database contents of `jobs.json` and
`archived_hashes` for the ids in `archived.json`.  The result pairs the
final listing list (which the code stores into `db.listings` and saves)
with the returned total `hash_removed + url_removed + fuzzy_removed`;
an empty database returns immediately with `0`. -/
def deduplicate_all (listings : List JobListing) (archived_hashes : List String) :
    List JobListing × Nat :=
  if listings = [] then ([], 0)
  else
    let h := dedup_by_content_hash listings
    let u := dedup_by_url h.1
    let f := dedup_fuzzy u.1 archived_hashes
    (f.1, h.2 + u.2 + f.2)

/-- Specification-side characterization of "insertion order of first
occurrence of each distinct key": keep each key the first time it
appears, in order. -/
def firstOccurrences (l : List String) : List String :=
  l.foldl (fun acc k => if k ∈ acc then acc else acc ++ [k]) []

/-! ### Association-list lemmas for the keyed (hash / URL) stages -/

lemma lookupKey_eq_none_iff (k : String) (s : List (String × JobListing)) :
    lookupKey k s = none ↔ k ∉ s.map Prod.fst := by
  induction s with
  | nil => simp [lookupKey]
  | cons p t ih =>
    obtain ⟨k', v⟩ := p
    simp only [lookupKey, List.map_cons, List.mem_cons]
    by_cases h : k' = k
    · subst h; simp
    · rw [if_neg h, ih]
      constructor
      · intro hn hmem
        rcases hmem with rfl | hmem
        · exact h rfl
        · exact hn hmem
      · intro hn hmem
        exact hn (Or.inr hmem)

lemma lookupKey_mem {k : String} {s : List (String × JobListing)} {v : JobListing}
    (h : lookupKey k s = some v) : (k, v) ∈ s := by
  induction s with
  | nil => simp [lookupKey] at h
  | cons p t ih =>
    obtain ⟨k', v'⟩ := p
    by_cases hk : k' = k
    · subst hk
      simp only [lookupKey, if_pos rfl] at h
      injection h with h'
      subst h'
      exact List.mem_cons_self _ _
    · simp only [lookupKey, if_neg hk] at h
      exact List.mem_cons_of_mem _ (ih h)

lemma lookupKey_of_nodup_mem {k : String} {s : List (String × JobListing)} {v : JobListing}
    (hnd : (s.map Prod.fst).Nodup) (hmem : (k, v) ∈ s) : lookupKey k s = some v := by
  induction s with
  | nil => simp at hmem
  | cons p t ih =>
    obtain ⟨k', v'⟩ := p
    simp only [List.map_cons, List.nodup_cons] at hnd
    rcases List.mem_cons.mp hmem with h | h
    · injection h with h1 h2
      subst h1; subst h2
      simp [lookupKey]
    · have hk : k' ≠ k := by
        rintro rfl
        exact hnd.1 (List.mem_map_of_mem Prod.fst h)
      simp [lookupKey, hk, ih hnd.2 h]

lemma replaceKey_map_fst (k : String) (v : JobListing) (s : List (String × JobListing)) :
    (replaceKey k v s).map Prod.fst = s.map Prod.fst := by
  induction s with
  | nil => simp [replaceKey]
  | cons p t ih =>
    obtain ⟨k', v'⟩ := p
    by_cases h : k' = k
    · simp [replaceKey, h]
    · simp [replaceKey, h, ih]

lemma replaceKey_mem {p : String × JobListing} {k : String} {v : JobListing}
    {s : List (String × JobListing)} (h : p ∈ replaceKey k v s) : p ∈ s ∨ p = (k, v) := by
  induction s with
  | nil => simp [replaceKey] at h
  | cons q t ih =>
    obtain ⟨k', v'⟩ := q
    by_cases hk : k' = k
    · subst hk
      simp only [replaceKey, if_pos rfl] at h
      rcases List.mem_cons.mp h with h | h
      · exact Or.inr h
      · exact Or.inl (List.mem_cons_of_mem _ h)
    · simp only [replaceKey, if_neg hk] at h
      rcases List.mem_cons.mp h with h | h
      · exact Or.inl (h ▸ List.mem_cons_self _ _)
      · rcases ih h with h' | h'
        · exact Or.inl (List.mem_cons_of_mem _ h')
        · exact Or.inr h'

/-- Effect of one `keyStep` on the stored key sequence: nothing when the
key is already present, append otherwise. -/
lemma keyStep_map_fst (key : JobListing → String) (acc : List (String × JobListing) × Nat)
    (x : JobListing) :
    ((keyStep key acc x).1).map Prod.fst =
      if key x ∈ acc.1.map Prod.fst then acc.1.map Prod.fst
      else acc.1.map Prod.fst ++ [key x] := by
  rcases hl : lookupKey (key x) acc.1 with _ | e
  · rw [if_neg ((lookupKey_eq_none_iff _ _).mp hl)]
    simp [keyStep, hl]
  · have hmem : key x ∈ acc.1.map Prod.fst := List.mem_map_of_mem Prod.fst (lookupKey_mem hl)
    rw [if_pos hmem]
    by_cases hd : x.date_added > e.date_added
    · simp [keyStep, hl, hd, replaceKey_map_fst]
    · simp [keyStep, hl, hd]

/-- One `keyStep` preserves the total `stored + removed` count, adding
exactly the one consumed listing. -/
lemma keyStep_count (key : JobListing → String) (acc : List (String × JobListing) × Nat)
    (x : JobListing) :
    ((keyStep key acc x).1).length + (keyStep key acc x).2 = acc.1.length + acc.2 + 1 := by
  rcases hl : lookupKey (key x) acc.1 with _ | e
  · simp [keyStep, hl]; omega
  · have hlen : ∀ v, (replaceKey (key x) v acc.1).length = acc.1.length := by
      intro v
      have := congrArg List.length (replaceKey_map_fst (key x) v acc.1)
      simpa using this
    by_cases hd : x.date_added > e.date_added
    · simp [keyStep, hl, hd, hlen]; omega
    · simp [keyStep, hl, hd]; omega

/-- Every entry after one `keyStep` is either an old entry or the
consumed listing stored under its own key. -/
lemma keyStep_entry_mem {key : JobListing → String} {acc : List (String × JobListing) × Nat}
    {x : JobListing} {p : String × JobListing} (h : p ∈ (keyStep key acc x).1) :
    p ∈ acc.1 ∨ p = (key x, x) := by
  rcases hl : lookupKey (key x) acc.1 with _ | e
  · simp only [keyStep, hl] at h
    rcases List.mem_append.mp h with h' | h'
    · exact Or.inl h'
    · simp at h'; exact Or.inr h'
  · by_cases hd : x.date_added > e.date_added
    · simp only [keyStep, hl, if_pos hd] at h
      exact replaceKey_mem h
    · simp only [keyStep, hl, if_neg hd] at h
      exact Or.inl h

/-- With pairwise-distinct keys, the only entry of `replaceKey k v s`
under key `k` is the replacement `v` (provided `k` is present). -/
lemma replaceKey_mem_self {k : String} {v₀ : JobListing} {s : List (String × JobListing)}
    (hnd : (s.map Prod.fst).Nodup) {v : JobListing}
    (hmem : (k, v) ∈ replaceKey k v₀ s) (hk : k ∈ s.map Prod.fst) : v = v₀ := by
  induction s with
  | nil => simp at hk
  | cons p t ih =>
    obtain ⟨k', v'⟩ := p
    simp only [List.map_cons, List.nodup_cons] at hnd
    by_cases hkk : k' = k
    · subst hkk
      simp only [replaceKey, if_pos rfl] at hmem
      rcases List.mem_cons.mp hmem with h | h
      · exact congrArg Prod.snd h
      · exact absurd (List.mem_map_of_mem Prod.fst h) hnd.1
    · simp only [replaceKey, if_neg hkk] at hmem
      rcases List.mem_cons.mp hmem with h | h
      · injection h with h1 _; exact absurd h1.symm hkk
      · have hk' : k ∈ t.map Prod.fst := by
          simp only [List.map_cons, List.mem_cons] at hk
          rcases hk with h' | h'
          · exact absurd h'.symm hkk
          · exact h'
        exact ih hnd.2 h hk'

/-- One `keyStep` preserves the invariant that every entry is stored
under its own key. -/
lemma keyStep_key_eq {key : JobListing → String} {acc : List (String × JobListing) × Nat}
    {x : JobListing} (h : ∀ p ∈ acc.1, key p.2 = p.1) :
    ∀ p ∈ (keyStep key acc x).1, key p.2 = p.1 := by
  intro p hp
  rcases keyStep_entry_mem hp with h' | h'
  · exact h p h'
  · subst h'; rfl

/-- One `keyStep` preserves pairwise distinctness of the stored keys. -/
lemma keyStep_nodup {key : JobListing → String} {acc : List (String × JobListing) × Nat}
    {x : JobListing} (h : (acc.1.map Prod.fst).Nodup) :
    (((keyStep key acc x).1).map Prod.fst).Nodup := by
  rw [keyStep_map_fst]
  by_cases hm : key x ∈ acc.1.map Prod.fst
  · rw [if_pos hm]; exact h
  · rw [if_neg hm]
    simp [List.nodup_append, h, hm]

/-- A lower bound on every stored value under a key already present is
preserved by one `keyStep` (values under a key are only ever replaced by
strictly newer ones). -/
lemma keyStep_key_bound {key : JobListing → String} {acc : List (String × JobListing) × Nat}
    {x : JobListing} {k : String} {d : Nat}
    (hk : k ∈ acc.1.map Prod.fst)
    (hb : ∀ v, (k, v) ∈ acc.1 → d ≤ v.date_added) :
    k ∈ ((keyStep key acc x).1).map Prod.fst ∧
      ∀ v, (k, v) ∈ (keyStep key acc x).1 → d ≤ v.date_added := by
  refine ⟨?_, ?_⟩
  · rw [keyStep_map_fst]
    by_cases hm : key x ∈ acc.1.map Prod.fst
    · rw [if_pos hm]; exact hk
    · rw [if_neg hm]; exact List.mem_append_left _ hk
  · intro v hv
    rcases hl : lookupKey (key x) acc.1 with _ | e
    · simp only [keyStep, hl] at hv
      rcases List.mem_append.mp hv with h | h
      · exact hb v h
      · simp only [List.mem_singleton] at h
        injection h with h1 _
        exact absurd (h1 ▸ hk) ((lookupKey_eq_none_iff _ _).mp hl)
    · by_cases hd : x.date_added > e.date_added
      · simp only [keyStep, hl, if_pos hd] at hv
        rcases replaceKey_mem hv with h | h
        · exact hb v h
        · injection h with h1 h2
          subst h2
          have he : d ≤ e.date_added := hb e (h1 ▸ lookupKey_mem hl)
          omega
      · simp only [keyStep, hl, if_neg hd] at hv
        exact hb v hv

/-- After one `keyStep` consuming `x`, the key of `x` is present and
(under distinct keys) every value stored under it has `date_added` at
least `x.date_added`. -/
lemma keyStep_self_bound {key : JobListing → String} {acc : List (String × JobListing) × Nat}
    {x : JobListing} (hnd : (acc.1.map Prod.fst).Nodup) :
    key x ∈ ((keyStep key acc x).1).map Prod.fst ∧
      ∀ v, (key x, v) ∈ (keyStep key acc x).1 → x.date_added ≤ v.date_added := by
  rcases hl : lookupKey (key x) acc.1 with _ | e
  · have hm : key x ∉ acc.1.map Prod.fst := (lookupKey_eq_none_iff _ _).mp hl
    constructor
    · rw [keyStep_map_fst, if_neg hm]
      exact List.mem_append_right _ (List.mem_singleton_self _)
    · intro v hv
      simp only [keyStep, hl] at hv
      rcases List.mem_append.mp hv with h | h
      · exact absurd (List.mem_map_of_mem Prod.fst h) hm
      · simp only [List.mem_singleton] at h
        have h2 : v = x := congrArg Prod.snd h
        rw [h2]
  · have hm : key x ∈ acc.1.map Prod.fst := List.mem_map_of_mem Prod.fst (lookupKey_mem hl)
    constructor
    · rw [keyStep_map_fst, if_pos hm]; exact hm
    · intro v hv
      by_cases hd : x.date_added > e.date_added
      · simp only [keyStep, hl, if_pos hd] at hv
        rw [replaceKey_mem_self hnd hv hm]
      · simp only [keyStep, hl, if_neg hd] at hv
        have huniq := lookupKey_of_nodup_mem hnd hv
        rw [hl] at huniq
        injection huniq with h'
        rw [← h']
        omega

/-! ### Fold-level invariants of the keyed stages -/

/-- The stored key sequence of the keyed fold follows the
keep-first-occurrence fold over the key sequence of the input. -/
lemma fold_keyStep_map_fst (key : JobListing → String) (l : List JobListing) :
    ∀ acc : List (String × JobListing) × Nat,
      ((l.foldl (keyStep key) acc).1).map Prod.fst =
        (l.map key).foldl (fun a k => if k ∈ a then a else a ++ [k]) (acc.1.map Prod.fst) := by
  induction l with
  | nil => intro acc; rfl
  | cons x t ih =>
    intro acc
    rw [List.foldl_cons, ih, List.map_cons, List.foldl_cons, keyStep_map_fst]

/-- The keyed fold consumes each input listing into either the store or
the removal counter: `stored + removed` grows by exactly the input
length. -/
lemma fold_keyStep_count (key : JobListing → String) (l : List JobListing) :
    ∀ acc : List (String × JobListing) × Nat,
      ((l.foldl (keyStep key) acc).1).length + (l.foldl (keyStep key) acc).2 =
        acc.1.length + acc.2 + l.length := by
  induction l with
  | nil => intro acc; simp
  | cons x t ih =>
    intro acc
    rw [List.foldl_cons]
    have h1 := ih (keyStep key acc x)
    have h2 := keyStep_count key acc x
    simp only [List.length_cons]
    omega

/-- Every entry after the keyed fold is either an initial entry or
stores one of the consumed listings. -/
lemma fold_keyStep_entry_mem (key : JobListing → String) (l : List JobListing) :
    ∀ (acc : List (String × JobListing) × Nat) (p : String × JobListing),
      p ∈ (l.foldl (keyStep key) acc).1 → p ∈ acc.1 ∨ p.2 ∈ l := by
  induction l with
  | nil => intro acc p hp; exact Or.inl hp
  | cons x t ih =>
    intro acc p hp
    rw [List.foldl_cons] at hp
    rcases ih (keyStep key acc x) p hp with h | h
    · rcases keyStep_entry_mem h with h' | h'
      · exact Or.inl h'
      · exact Or.inr (by rw [h']; exact List.mem_cons_self _ _)
    · exact Or.inr (List.mem_cons_of_mem _ h)

/-- The keyed fold preserves the invariant that every entry is stored
under its own key. -/
lemma fold_keyStep_key_eq (key : JobListing → String) (l : List JobListing) :
    ∀ acc : List (String × JobListing) × Nat,
      (∀ p ∈ acc.1, key p.2 = p.1) →
        ∀ p ∈ (l.foldl (keyStep key) acc).1, key p.2 = p.1 := by
  induction l with
  | nil => intro acc h; exact h
  | cons x t ih =>
    intro acc h
    rw [List.foldl_cons]
    exact ih (keyStep key acc x) (keyStep_key_eq h)

/-- The keyed fold preserves pairwise distinctness of stored keys. -/
lemma fold_keyStep_nodup (key : JobListing → String) (l : List JobListing) :
    ∀ acc : List (String × JobListing) × Nat,
      (acc.1.map Prod.fst).Nodup →
        (((l.foldl (keyStep key) acc).1).map Prod.fst).Nodup := by
  induction l with
  | nil => intro acc h; exact h
  | cons x t ih =>
    intro acc h
    rw [List.foldl_cons]
    exact ih (keyStep key acc x) (keyStep_nodup h)

/-- A lower bound on all values stored under a present key is preserved
by the keyed fold. -/
lemma fold_keyStep_key_bound (key : JobListing → String) (l : List JobListing) :
    ∀ (acc : List (String × JobListing) × Nat) (k : String) (d : Nat),
      k ∈ acc.1.map Prod.fst →
      (∀ v, (k, v) ∈ acc.1 → d ≤ v.date_added) →
      ∀ v, (k, v) ∈ (l.foldl (keyStep key) acc).1 → d ≤ v.date_added := by
  induction l with
  | nil => intro acc k d _ hb; exact hb
  | cons x t ih =>
    intro acc k d hk hb
    rw [List.foldl_cons]
    obtain ⟨hk', hb'⟩ := @keyStep_key_bound key acc x k d hk hb
    exact ih (keyStep key acc x) k d hk' hb'

/-- After the keyed fold (under distinct stored keys), every stored
entry dominates, in `date_added`, every consumed listing that shares
its key. -/
lemma fold_keyStep_max_date (key : JobListing → String) (l : List JobListing) :
    ∀ acc : List (String × JobListing) × Nat,
      (acc.1.map Prod.fst).Nodup →
      ∀ p ∈ (l.foldl (keyStep key) acc).1,
        ∀ x ∈ l, key x = p.1 → x.date_added ≤ p.2.date_added := by
  induction l with
  | nil => intro acc _ p _ x hx; exact absurd hx (List.not_mem_nil x)
  | cons y t ih =>
    intro acc hnd p hp x hx hkey
    rw [List.foldl_cons] at hp
    rcases List.mem_cons.mp hx with rfl | hx
    · obtain ⟨h1, h2⟩ := @keyStep_self_bound key acc x hnd
      have hmem : (key x, p.2) ∈ (t.foldl (keyStep key) (keyStep key acc x)).1 := by
        have : (key x, p.2) = p := Prod.ext hkey rfl
        rw [this]
        exact hp
      exact fold_keyStep_key_bound key t (keyStep key acc x) (key x) x.date_added h1 h2 p.2 hmem
    · exact ih (keyStep key acc y) (keyStep_nodup hnd) p hp x hx hkey

/-- When no input key collides with the store or with another input
key, the keyed fold just appends everything and removes nothing. -/
lemma fold_keyStep_fresh (key : JobListing → String) (l : List JobListing) :
    ∀ acc : List (String × JobListing) × Nat,
      (∀ x ∈ l, key x ∉ acc.1.map Prod.fst) → (l.map key).Nodup →
        l.foldl (keyStep key) acc = (acc.1 ++ l.map (fun x => (key x, x)), acc.2) := by
  induction l with
  | nil => intro acc _ _; simp
  | cons x t ih =>
    intro acc hfresh hnd
    simp only [List.map_cons, List.nodup_cons] at hnd
    have hx : key x ∉ acc.1.map Prod.fst := hfresh x (List.mem_cons_self _ _)
    have hl : lookupKey (key x) acc.1 = none := (lookupKey_eq_none_iff _ _).mpr hx
    have hstep : keyStep key acc x = (acc.1 ++ [(key x, x)], acc.2) := by
      simp [keyStep, hl]
    rw [List.foldl_cons, hstep, ih (acc.1 ++ [(key x, x)], acc.2) ?fresh hnd.2]
    · simp
    case fresh =>
      intro y hy
      simp only [List.map_append, List.map_cons, List.map_nil, List.mem_append,
        List.mem_singleton]
      rintro (h | h)
      · exact hfresh y (List.mem_cons_of_mem _ hy) h
      · exact hnd.1 (h ▸ List.mem_map_of_mem key hy)

/-! ### First-occurrence fold facts -/

lemma firstOcc_fold_nodup (l : List String) :
    ∀ acc : List String, acc.Nodup →
      (l.foldl (fun a k => if k ∈ a then a else a ++ [k]) acc).Nodup := by
  induction l with
  | nil => intro acc h; exact h
  | cons x t ih =>
    intro acc h
    rw [List.foldl_cons]
    by_cases hm : x ∈ acc
    · rw [if_pos hm]; exact ih acc h
    · rw [if_neg hm]
      refine ih _ ?_
      simp [List.nodup_append, h, hm]

lemma firstOcc_fold_mem (l : List String) :
    ∀ (acc : List String) (a : String),
      a ∈ l.foldl (fun a k => if k ∈ a then a else a ++ [k]) acc ↔ a ∈ acc ∨ a ∈ l := by
  induction l with
  | nil => intro acc a; simp
  | cons x t ih =>
    intro acc a
    rw [List.foldl_cons]
    by_cases hm : x ∈ acc
    · rw [if_pos hm, ih]
      constructor
      · rintro (h | h)
        · exact Or.inl h
        · exact Or.inr (List.mem_cons_of_mem _ h)
      · rintro (h | h)
        · exact Or.inl h
        · rcases List.mem_cons.mp h with rfl | h'
          · exact Or.inl hm
          · exact Or.inr h'
    · rw [if_neg hm, ih]
      simp only [List.mem_append, List.mem_singleton, List.mem_cons]
      tauto

/-! ### Keyed-stage facts -/

/-- The key sequence of the survivors is the first-occurrence
subsequence of the input key sequence. -/
lemma dedupByKey_map_key (key : JobListing → String) (l : List JobListing) :
    (dedupByKey key l).1.map key = firstOccurrences (l.map key) := by
  simp only [dedupByKey]
  rw [List.map_map]
  have hcons := fold_keyStep_key_eq key l ([], 0) (by intro p hp; simp at hp)
  have hmaps : (l.foldl (keyStep key) ([], 0)).1.map (key ∘ Prod.snd) =
      (l.foldl (keyStep key) ([], 0)).1.map Prod.fst :=
    List.map_congr_left (fun p hp => hcons p hp)
  rw [hmaps, fold_keyStep_map_fst]
  rfl

/-- Surviving keys are pairwise distinct. -/
lemma dedupByKey_key_nodup (key : JobListing → String) (l : List JobListing) :
    ((dedupByKey key l).1.map key).Nodup := by
  rw [dedupByKey_map_key]
  exact firstOcc_fold_nodup _ [] List.nodup_nil

/-- Survivors plus removals account for the whole input. -/
lemma dedupByKey_length_add (key : JobListing → String) (l : List JobListing) :
    (dedupByKey key l).1.length + (dedupByKey key l).2 = l.length := by
  simp only [dedupByKey, List.length_map]
  have := fold_keyStep_count key l ([], 0)
  simpa using this

/-- Every survivor is one of the input listings. -/
lemma dedupByKey_subset {key : JobListing → String} {l : List JobListing} :
    ∀ y ∈ (dedupByKey key l).1, y ∈ l := by
  intro y hy
  simp only [dedupByKey, List.mem_map] at hy
  obtain ⟨p, hp, rfl⟩ := hy
  rcases fold_keyStep_entry_mem key l ([], 0) p hp with h | h
  · simp at h
  · exact h

/-- Every survivor has the greatest `date_added` among the input
listings sharing its key. -/
lemma dedupByKey_max_date {key : JobListing → String} {l : List JobListing} :
    ∀ y ∈ (dedupByKey key l).1, ∀ x ∈ l, key x = key y →
      x.date_added ≤ y.date_added := by
  intro y hy x hx hk
  simp only [dedupByKey, List.mem_map] at hy
  obtain ⟨p, hp, rfl⟩ := hy
  have hfst := fold_keyStep_key_eq key l ([], 0) (by intro q hq; simp at hq) p hp
  exact fold_keyStep_max_date key l ([], 0) (by simp) p hp x hx (hk.trans hfst)

/-- Every input key is represented among the survivors. -/
lemma dedupByKey_coverage {key : JobListing → String} {l : List JobListing} :
    ∀ x ∈ l, ∃ y ∈ (dedupByKey key l).1, key y = key x := by
  intro x hx
  have hmem : key x ∈ (dedupByKey key l).1.map key := by
    rw [dedupByKey_map_key]
    exact (firstOcc_fold_mem (l.map key) [] (key x)).mpr
      (Or.inr (List.mem_map_of_mem key hx))
  obtain ⟨y, hy, hk⟩ := List.mem_map.mp hmem
  exact ⟨y, hy, hk⟩

/-- On an input with pairwise-distinct keys the keyed stage is the
identity with zero removals. -/
lemma dedupByKey_of_nodup (key : JobListing → String) (l : List JobListing)
    (h : (l.map key).Nodup) : dedupByKey key l = (l, 0) := by
  simp only [dedupByKey]
  rw [fold_keyStep_fresh key l ([], 0) (by simp) h]
  simp only [List.nil_append, List.map_map]
  have hid : (Prod.snd ∘ fun x => (key x, x)) = id := rfl
  rw [hid, List.map_id]

/-! ### Concrete listings used in the claims' boundary cases -/

/-- A listing dated 2026-01-01 (tie-break example of the spec). -/
def exListingJan : JobListing :=
  { id := "h1", company := "Acme", role := "SWE Intern",
    apply_url := "https://jobs.example/a", date_added := 20260101 }

/-- A listing with the same `id` dated 2026-02-01. -/
def exListingFeb : JobListing :=
  { id := "h1", company := "Acme Inc", role := "SWE Intern",
    apply_url := "https://jobs.example/b", date_added := 20260201 }

/-- A listing whose URL carries a trailing slash. -/
def exUrlSlash : JobListing :=
  { id := "u1", company := "Acme", role := "SWE Intern",
    apply_url := "https://jobs.example/req/", date_added := 20260101 }

/-- The same URL without the trailing slash (a distinct key for the URL
stage). -/
def exUrlNoSlash : JobListing :=
  { id := "u2", company := "Bolt", role := "Data Intern",
    apply_url := "https://jobs.example/req", date_added := 20260102 }

/-! ### Claim theorems for the hash and URL stages -/

/-- C3: the content-hash stage keeps exactly one survivor per distinct
id (distinct surviving ids, every input id covered), each survivor is an
input listing with the greatest `date_added` of its id-group, the output
is ordered by first occurrence of each distinct id, the concrete
tie-break between dates 2026-01-01 and 2026-02-01 keeps 2026-02-01 in
either input order, and empty input yields empty output with count 0. -/
theorem content_hash_stage_correct (l : List JobListing) :
    ((dedup_by_content_hash l).1.map (fun y => y.id)).Nodup
    ∧ (∀ x ∈ l, ∃ y ∈ (dedup_by_content_hash l).1, y.id = x.id)
    ∧ (∀ y ∈ (dedup_by_content_hash l).1, y ∈ l ∧
        ∀ x ∈ l, x.id = y.id → x.date_added ≤ y.date_added)
    ∧ (dedup_by_content_hash l).1.map (fun y => y.id) =
        firstOccurrences (l.map (fun x => x.id))
    ∧ ((dedup_by_content_hash [exListingJan, exListingFeb]).1.map
          (fun y => y.date_added) = [20260201]
        ∧ (dedup_by_content_hash [exListingFeb, exListingJan]).1.map
          (fun y => y.date_added) = [20260201])
    ∧ dedup_by_content_hash ([] : List JobListing) = ([], 0) := by
  refine ⟨dedupByKey_key_nodup _ l, ?_, ?_, dedupByKey_map_key _ l, ⟨by decide, by decide⟩,
    by decide⟩
  · intro x hx
    obtain ⟨y, hy, hk⟩ := dedupByKey_coverage x hx
    exact ⟨y, hy, hk⟩
  · intro y hy
    exact ⟨dedupByKey_subset y hy, fun x hx hid => dedupByKey_max_date y hy x hx hid⟩

/-- Witness for C3 at a concrete input: the id of the January listing is
still represented after deduplicating the two-listing example. -/
theorem content_hash_stage_correct_witness :
    ∃ y ∈ (dedup_by_content_hash [exListingJan, exListingFeb]).1,
      y.id = exListingJan.id :=
  (content_hash_stage_correct [exListingJan, exListingFeb]).2.1 exListingJan (by decide)

/-- C7: after the URL stage all surviving `apply_url` values are
pairwise distinct, the grouping key being the exact string: two URLs
differing only by a trailing slash are distinct keys and both
survive. -/
theorem url_stage_pairwise_distinct (l : List JobListing) :
    List.Pairwise (fun x y => x.apply_url ≠ y.apply_url) (dedup_by_url l).1
    ∧ dedup_by_url [exUrlSlash, exUrlNoSlash] = ([exUrlSlash, exUrlNoSlash], 0) := by
  constructor
  · have h : ((dedup_by_url l).1.map (fun y => y.apply_url)).Pairwise (fun a b => a ≠ b) :=
      dedupByKey_key_nodup (fun y => y.apply_url) l
    exact List.pairwise_map.mp h
  · decide

/-- C8: the content-hash stage is idempotent — a second run on the first
run's output returns it unchanged with zero removals. -/
theorem hash_stage_idempotent (l : List JobListing) :
    dedup_by_content_hash (dedup_by_content_hash l).1 =
      ((dedup_by_content_hash l).1, 0) :=
  dedupByKey_of_nodup _ _ (dedupByKey_key_nodup _ l)

/-! ### Inner-loop invariants of the fuzzy stage -/

/-- The removed-index set only grows through the inner loop. -/
lemma innerLoop_mono (L : List JobListing) (A : List String) (i : Nat) :
    ∀ (js : List Nat) (rem : Finset Nat) (r : Nat),
      rem ⊆ (innerLoop L A i js (rem, r)).1 := by
  intro js
  induction js with
  | nil => intro rem r; simp [innerLoop]
  | cons j js ih =>
    intro rem r
    simp only [innerLoop]
    split_ifs with h1 h2 h3 h4 h5
    · exact ih rem r
    · exact ih rem r
    · exact ih rem r
    · exact ih rem r
    · exact Finset.subset_insert i rem
    · exact (Finset.subset_insert j rem).trans (ih (insert j rem) (r + 1))

/-- Inner-loop counting: each increment of the removal counter inserts a
fresh index, so the counter grows exactly with the removed-index set. -/
lemma innerLoop_count (L : List JobListing) (A : List String) (i : Nat) :
    ∀ (js : List Nat) (rem : Finset Nat) (r : Nat),
      i ∉ rem → (∀ j ∈ js, i < j) →
      (innerLoop L A i js (rem, r)).2 + rem.card =
        r + ((innerLoop L A i js (rem, r)).1).card := by
  intro js
  induction js with
  | nil => intro rem r _ _; simp [innerLoop]
  | cons j js ih =>
    intro rem r hi hlt
    have hlt' : ∀ k ∈ js, i < k := fun k hk => hlt k (List.mem_cons_of_mem _ hk)
    simp only [innerLoop]
    split_ifs with h1 h2 h3 h4 h5
    · exact ih rem r hi hlt'
    · exact ih rem r hi hlt'
    · exact ih rem r hi hlt'
    · exact ih rem r hi hlt'
    · simp only
      rw [Finset.card_insert_of_not_mem hi]
      omega
    · have hij : i ≠ j := Nat.ne_of_lt (hlt j (List.mem_cons_self _ _))
      have hi' : i ∉ insert j rem := by
        simp only [Finset.mem_insert]
        rintro (h | h)
        · exact hij h
        · exact hi h
      have hrec := ih (insert j rem) (r + 1) hi' hlt'
      rw [Finset.card_insert_of_not_mem h1] at hrec
      omega

/-- All indices the inner loop inserts are in range. -/
lemma innerLoop_subset_range (L : List JobListing) (A : List String) (i n : Nat)
    (hin : i < n) :
    ∀ (js : List Nat) (rem : Finset Nat) (r : Nat),
      (∀ j ∈ js, j < n) → rem ⊆ Finset.range n →
      (innerLoop L A i js (rem, r)).1 ⊆ Finset.range n := by
  intro js
  induction js with
  | nil => intro rem r _ h; simpa [innerLoop] using h
  | cons j js ih =>
    intro rem r hjs hrem
    have hjs' : ∀ k ∈ js, k < n := fun k hk => hjs k (List.mem_cons_of_mem _ hk)
    simp only [innerLoop]
    split_ifs with h1 h2 h3 h4 h5
    · exact ih rem r hjs' hrem
    · exact ih rem r hjs' hrem
    · exact ih rem r hjs' hrem
    · exact ih rem r hjs' hrem
    · exact Finset.insert_subset (Finset.mem_range.mpr hin) hrem
    · exact ih (insert j rem) (r + 1) hjs'
        (Finset.insert_subset (Finset.mem_range.mpr (hjs j (List.mem_cons_self _ _))) hrem)

/-- The inner loop (run for a non-archived `i`) never inserts the index
of an archived listing. -/
lemma innerLoop_arch_free (L : List JobListing) (A : List String) (i : Nat)
    (hiA : (L.getD i default).id ∉ A) (k : Nat)
    (hkA : (L.getD k default).id ∈ A) :
    ∀ (js : List Nat) (rem : Finset Nat) (r : Nat),
      k ∉ rem → k ∉ (innerLoop L A i js (rem, r)).1 := by
  intro js
  induction js with
  | nil => intro rem r hk; simpa [innerLoop] using hk
  | cons j js ih =>
    intro rem r hk
    simp only [innerLoop]
    split_ifs with h1 h2 h3 h4 h5
    · exact ih rem r hk
    · exact ih rem r hk
    · exact ih rem r hk
    · exact ih rem r hk
    · simp only [Finset.mem_insert]
      rintro (h | h)
      · exact hiA (h ▸ hkA)
      · exact hk h
    · refine ih (insert j rem) (r + 1) ?_
      simp only [Finset.mem_insert]
      rintro (h | h)
      · exact h2 (h ▸ hkA)
      · exact hk h

/-- Inner-loop postcondition: if `i` survived the whole inner loop, then
for every index `j` of the loop range that also survived and is not
archived, the pair `(i, j)` fails the fuzzy-duplicate test. -/
lemma innerLoop_post (L : List JobListing) (A : List String) (i : Nat) :
    ∀ (js : List Nat) (rem : Finset Nat) (r : Nat),
      i ∉ (innerLoop L A i js (rem, r)).1 →
      ∀ j ∈ js, j ∉ (innerLoop L A i js (rem, r)).1 →
        (L.getD j default).id ∉ A →
        ¬ fuzzyMatch (L.getD i default) (L.getD j default) := by
  intro js
  induction js with
  | nil => intro rem r _ j hj; exact absurd hj (List.not_mem_nil j)
  | cons j₀ js ih =>
    intro rem r hi j hj hjrem hjA
    simp only [innerLoop] at hi hjrem
    split_ifs at hi hjrem with h1 h2 h3 h4 h5
    · rcases List.mem_cons.mp hj with rfl | hj'
      · exact absurd (innerLoop_mono L A i js rem r h1) hjrem
      · exact ih rem r hi j hj' hjrem hjA
    · rcases List.mem_cons.mp hj with rfl | hj'
      · exact absurd h2 hjA
      · exact ih rem r hi j hj' hjrem hjA
    · rcases List.mem_cons.mp hj with rfl | hj'
      · rintro ⟨h90, _⟩
        exact absurd h90 (not_lt.mpr h3)
      · exact ih rem r hi j hj' hjrem hjA
    · rcases List.mem_cons.mp hj with rfl | hj'
      · rintro ⟨_, h08⟩
        exact absurd h08 (not_lt.mpr h4)
      · exact ih rem r hi j hj' hjrem hjA
    · exact absurd (Finset.mem_insert_self i rem) hi
    · rcases List.mem_cons.mp hj with rfl | hj'
      · exact absurd (innerLoop_mono L A i js (insert j rem) (r + 1)
          (Finset.mem_insert_self j rem)) hjrem
      · exact ih (insert j₀ rem) (r + 1) hi j hj' hjrem hjA

/-! ### Outer-loop invariants of the fuzzy stage -/

/-- The removed-index set only grows through the outer loop. -/
lemma outerLoop_mono (L : List JobListing) (A : List String) :
    ∀ (il : List Nat) (acc : Finset Nat × Nat), acc.1 ⊆ (outerLoop L A il acc).1 := by
  intro il
  induction il with
  | nil => intro acc; simp [outerLoop]
  | cons i il ih =>
    intro acc
    obtain ⟨rem, r⟩ := acc
    simp only [outerLoop]
    split_ifs with h1 h2
    · exact ih (rem, r)
    · exact ih (rem, r)
    · exact (innerLoop_mono L A i _ rem r).trans
        (ih (innerLoop L A i (List.range' (i + 1) (L.length - (i + 1))) (rem, r)))

/-- Outer-loop counting: the removal counter grows exactly with the
removed-index set. -/
lemma outerLoop_count (L : List JobListing) (A : List String) :
    ∀ (il : List Nat) (acc : Finset Nat × Nat),
      (outerLoop L A il acc).2 + acc.1.card = acc.2 + ((outerLoop L A il acc).1).card := by
  intro il
  induction il with
  | nil => intro acc; simp [outerLoop]
  | cons i il ih =>
    intro acc
    obtain ⟨rem, r⟩ := acc
    simp only [outerLoop]
    split_ifs with h1 h2
    · exact ih (rem, r)
    · exact ih (rem, r)
    · have hlt : ∀ j ∈ List.range' (i + 1) (L.length - (i + 1)), i < j := by
        intro j hj
        have := (List.mem_range'_1.mp hj).1
        omega
      have hinner := innerLoop_count L A i (List.range' (i + 1) (L.length - (i + 1))) rem r h1 hlt
      have houter := ih (innerLoop L A i (List.range' (i + 1) (L.length - (i + 1))) (rem, r))
      omega

/-- Every index the outer loop inserts is in range. -/
lemma outerLoop_subset_range (L : List JobListing) (A : List String) :
    ∀ (il : List Nat) (acc : Finset Nat × Nat),
      (∀ i ∈ il, i < L.length) → acc.1 ⊆ Finset.range L.length →
      (outerLoop L A il acc).1 ⊆ Finset.range L.length := by
  intro il
  induction il with
  | nil => intro acc _ h; simpa [outerLoop] using h
  | cons i il ih =>
    intro acc hil hacc
    obtain ⟨rem, r⟩ := acc
    have hil' : ∀ k ∈ il, k < L.length := fun k hk => hil k (List.mem_cons_of_mem _ hk)
    simp only [outerLoop]
    split_ifs with h1 h2
    · exact ih (rem, r) hil' hacc
    · exact ih (rem, r) hil' hacc
    · refine ih _ hil' ?_
      refine innerLoop_subset_range L A i L.length (hil i (List.mem_cons_self _ _)) _ rem r ?_ hacc
      intro j hj
      have := (List.mem_range'_1.mp hj).2
      have hi : i < L.length := hil i (List.mem_cons_self _ _)
      omega

/-- The outer loop never inserts the index of an archived listing. -/
lemma outerLoop_arch_free (L : List JobListing) (A : List String) :
    ∀ (il : List Nat) (acc : Finset Nat × Nat) (k : Nat),
      (L.getD k default).id ∈ A → k ∉ acc.1 → k ∉ (outerLoop L A il acc).1 := by
  intro il
  induction il with
  | nil => intro acc k _ h; simpa [outerLoop] using h
  | cons i il ih =>
    intro acc k hkA hk
    obtain ⟨rem, r⟩ := acc
    simp only [outerLoop]
    split_ifs with h1 h2
    · exact ih (rem, r) k hkA hk
    · exact ih (rem, r) k hkA hk
    · exact ih _ k hkA (innerLoop_arch_free L A i h2 k hkA _ rem r hk)

/-- Outer-loop postcondition: a surviving, non-archived `i` of the index
list was compared against every surviving, non-archived later index `j`,
and the pair failed the fuzzy-duplicate test. -/
lemma outerLoop_post (L : List JobListing) (A : List String) :
    ∀ (il : List Nat) (acc : Finset Nat × Nat), ∀ i ∈ il,
      i ∉ (outerLoop L A il acc).1 → (L.getD i default).id ∉ A →
      ∀ j ∈ List.range' (i + 1) (L.length - (i + 1)),
        j ∉ (outerLoop L A il acc).1 → (L.getD j default).id ∉ A →
        ¬ fuzzyMatch (L.getD i default) (L.getD j default) := by
  intro il
  induction il with
  | nil => intro acc i hi; exact absurd hi (List.not_mem_nil i)
  | cons i₀ il ih =>
    intro acc i hi_mem hi_surv hiA j hj hj_surv hjA
    obtain ⟨rem, r⟩ := acc
    simp only [outerLoop] at hi_surv hj_surv
    split_ifs at hi_surv hj_surv with h1 h2
    · rcases List.mem_cons.mp hi_mem with rfl | hi_mem'
      · exact absurd (outerLoop_mono L A il (rem, r) h1) hi_surv
      · exact ih (rem, r) i hi_mem' hi_surv hiA j hj hj_surv hjA
    · rcases List.mem_cons.mp hi_mem with rfl | hi_mem'
      · exact absurd h2 hiA
      · exact ih (rem, r) i hi_mem' hi_surv hiA j hj hj_surv hjA
    · rcases List.mem_cons.mp hi_mem with rfl | hi_mem'
      · have hii : i ∉ (innerLoop L A i (List.range' (i + 1) (L.length - (i + 1))) (rem, r)).1 :=
          fun hmem => hi_surv (outerLoop_mono L A il _ hmem)
        have hjj : j ∉ (innerLoop L A i (List.range' (i + 1) (L.length - (i + 1))) (rem, r)).1 :=
          fun hmem => hj_surv (outerLoop_mono L A il _ hmem)
        exact innerLoop_post L A i _ rem r hii j hj hjj hjA
      · exact ih _ i hi_mem' hi_surv hiA j hj hj_surv hjA

/-! ### Symmetry of the two scorers -/

lemma lcsLenAux_comm : ∀ (fuel : Nat) (a b : List Char),
    lcsLenAux fuel a b = lcsLenAux fuel b a := by
  intro fuel
  induction fuel with
  | zero => intro a b; rfl
  | succ f ih =>
    intro a b
    rcases a with _ | ⟨a, as⟩ <;> rcases b with _ | ⟨b, bs⟩
    · rfl
    · rfl
    · rfl
    · simp only [lcsLenAux]
      by_cases h : a = b
      · rw [if_pos h, if_pos h.symm, ih]
      · rw [if_neg h, if_neg (fun h' => h h'.symm), ih as (b :: bs), ih (a :: as) bs,
          Nat.max_comm]

lemma lcsLen_comm (a b : List Char) : lcsLen a b = lcsLen b a := by
  unfold lcsLen
  rw [Nat.add_comm a.length b.length, lcsLenAux_comm]

lemma fuzz_ratio_score_comm (s1 s2 : String) :
    fuzz_ratio_score s1 s2 = fuzz_ratio_score s2 s1 := by
  simp only [fuzz_ratio_score]
  rw [lcsLen_comm, Nat.add_comm s1.data.length s2.data.length]

lemma compute_token_overlap_comm (a b : String) :
    compute_token_overlap a b = compute_token_overlap b a := by
  simp only [compute_token_overlap]
  rw [Finset.union_comm, Finset.inter_comm]
  by_cases h : tokenSet a = ∅ ∧ tokenSet b = ∅
  · rw [if_pos h, if_pos (show tokenSet b = ∅ ∧ tokenSet a = ∅ from And.intro h.2 h.1)]
  · rw [if_neg h, if_neg (show ¬(tokenSet b = ∅ ∧ tokenSet a = ∅) from
      fun h' => h (And.intro h'.2 h'.1))]

lemma fuzzyMatch_comm {x y : JobListing} : fuzzyMatch x y ↔ fuzzyMatch y x := by
  unfold fuzzyMatch
  rw [fuzz_ratio_score_comm, compute_token_overlap_comm]

/-! ### Assembling the fuzzy-stage claims -/

/-- Elements of `enum` decode to in-range indices and `getD` values. -/
lemma mem_enum_getD {x : Nat × JobListing} {l : List JobListing} (h : x ∈ l.enum) :
    x.1 < l.length ∧ x.2 = l.getD x.1 default := by
  have h' := List.mem_enum_iff_getElem?.mp h
  have hlt : x.1 < l.length := (List.getElem?_eq_some.mp h').1
  refine ⟨hlt, ?_⟩
  rw [List.getD_eq_getElem l default hlt]
  have := (List.getElem?_eq_some.mp h').2
  exact this.symm

/-- `enum` is strictly increasing in its index component. -/
lemma enum_pairwise_fst_lt (l : List JobListing) :
    l.enum.Pairwise (fun p q => p.1 < q.1) := by
  rw [List.pairwise_iff_getElem]
  intro a b ha hb hab
  have hla : a < l.length := by simpa using ha
  have hlb : b < l.length := by simpa using hb
  rw [List.getElem_enum, List.getElem_enum]
  exact hab

/-- Two surviving indices of the fuzzy stage, both non-archived, never
form a fuzzy-duplicate pair. -/
lemma fuzzy_no_match_of_survivors (L : List JobListing) (A : List String)
    {i j : Nat} (hij : i < j) (hj : j < L.length)
    (hi_surv : i ∉ fuzzyRemovedSet L A) (hj_surv : j ∉ fuzzyRemovedSet L A)
    (hiA : (L.getD i default).id ∉ A) (hjA : (L.getD j default).id ∉ A) :
    ¬ fuzzyMatch (L.getD i default) (L.getD j default) := by
  have hi_lt : i < L.length := lt_trans hij hj
  have hi_mem : i ∈ List.range L.length := List.mem_range.mpr hi_lt
  have hj_mem : j ∈ List.range' (i + 1) (L.length - (i + 1)) :=
    List.mem_range'_1.mpr ⟨hij, by omega⟩
  exact outerLoop_post L A (List.range L.length) (∅, 0) i hi_mem hi_surv hiA j hj_mem
    hj_surv hjA

/-- Filtering the indices outside `s` from `range n` leaves `n - |s|`
indices when `s ⊆ range n`. -/
lemma length_filter_not_mem_range (n : Nat) (s : Finset Nat) (hs : s ⊆ Finset.range n) :
    ((List.range n).filter (fun i => i ∉ s)).length = n - s.card := by
  have hnd : ((List.range n).filter (fun i => decide (i ∉ s))).Nodup :=
    (List.nodup_range n).filter _
  have hrange : (List.range n).toFinset = Finset.range n := by
    ext i
    simp
  rw [← List.toFinset_card_of_nodup hnd, List.toFinset_filter, hrange]
  rw [show (Finset.filter (fun x => decide (x ∉ s) = true) (Finset.range n)) =
      Finset.range n \ s from by ext i; simp [Finset.mem_sdiff],
    Finset.card_sdiff hs, Finset.card_range]

/-- The fuzzy stage's survivors plus its removal count account for the
whole input. -/
lemma dedup_fuzzy_count (L : List JobListing) (A : List String) :
    (dedup_fuzzy L A).1.length + (dedup_fuzzy L A).2 = L.length := by
  by_cases hlen : L.length ≤ 1
  · unfold dedup_fuzzy; rw [if_pos hlen]; simp
  · unfold dedup_fuzzy; rw [if_neg hlen]
    show ((L.enum.filter (fun p => p.1 ∉ fuzzyRemovedSet L A)).map Prod.snd).length +
      (outerLoop L A (List.range L.length) (∅, 0)).2 = L.length
    have hsub : fuzzyRemovedSet L A ⊆ Finset.range L.length :=
      outerLoop_subset_range L A (List.range L.length) (∅, 0)
        (fun i hi => List.mem_range.mp hi) (by simp)
    have hcard : (fuzzyRemovedSet L A).card ≤ L.length := by
      have h := Finset.card_le_card hsub
      simpa using h
    have hcount := outerLoop_count L A (List.range L.length) (∅, 0)
    rw [show (outerLoop L A (List.range L.length) (∅, 0)).1 = fuzzyRemovedSet L A from rfl]
      at hcount
    simp only [Finset.card_empty, add_zero] at hcount
    have hflen : (L.enum.filter (fun p => p.1 ∉ fuzzyRemovedSet L A)).length =
        ((List.range L.length).filter (fun i => i ∉ fuzzyRemovedSet L A)).length := by
      rw [← List.enum_map_fst L, List.filter_map, List.length_map]
      rfl
    rw [List.length_map, hflen, length_filter_not_mem_range L.length _ hsub]
    omega

/-- Jaccard overlap of a string with itself is `1` as soon as it has at
least one token. -/
lemma compute_token_overlap_self (a : String) (h : tokenSet a ≠ ∅) :
    compute_token_overlap a a = 1 := by
  simp only [compute_token_overlap]
  rw [if_neg (show ¬(tokenSet a = ∅ ∧ tokenSet a = ∅) from fun h' => h h'.1),
    Finset.union_self, if_neg h, Finset.inter_self]
  have hc : ((tokenSet a).card : ℚ) ≠ 0 := by
    rw [Nat.cast_ne_zero]
    intro hc0
    exact h (Finset.card_eq_zero.mp hc0)
  exact div_self hc

/-- An archived listing (its id below is meant to be in `archived_hashes`). -/
def exArchived : JobListing :=
  { id := "arch-1", company := "Acme", role := "SWE Intern",
    apply_url := "https://jobs.example/arch", date_added := 20260101 }

/-- A fresh listing fuzzily identical to `exArchived` (same company,
same role) but not archived. -/
def exFresh : JobListing :=
  { id := "fresh-1", company := "Acme", role := "SWE Intern",
    apply_url := "https://jobs.example/fresh", date_added := 20260105 }

/-- The older listing of a fuzzy-duplicate pair. -/
def exOld : JobListing :=
  { id := "old-1", company := "Acme", role := "SWE Intern",
    apply_url := "https://jobs.example/old", date_added := 20260101 }

/-- The newer listing of a fuzzy-duplicate pair. -/
def exNew : JobListing :=
  { id := "new-1", company := "Acme", role := "SWE Intern",
    apply_url := "https://jobs.example/new", date_added := 20260105 }

/-- C1: in the output of the fuzzy stage no two surviving listings,
neither of which is archived, simultaneously have company similarity
strictly above 90 and role token overlap strictly above 0.8 (in either
orientation of the pair). -/
theorem fuzzy_stage_no_duplicate_pair (L : List JobListing) (A : List String) :
    List.Pairwise (fun x y => x.id ∉ A → y.id ∉ A →
      ¬ fuzzyMatch x y ∧ ¬ fuzzyMatch y x) (dedup_fuzzy L A).1 := by
  by_cases hlen : L.length ≤ 1
  · rcases L with _ | ⟨x, _ | ⟨y, t⟩⟩
    · simp [dedup_fuzzy]
    · simp [dedup_fuzzy]
    · simp at hlen
  · unfold dedup_fuzzy
    rw [if_neg hlen]
    show List.Pairwise _ ((L.enum.filter (fun p => p.1 ∉ fuzzyRemovedSet L A)).map Prod.snd)
    rw [List.pairwise_map]
    have henum := enum_pairwise_fst_lt L
    refine List.Pairwise.imp_of_mem ?_ (henum.filter _)
    intro p q hp hq hpq
    intro hpA hqA
    have hp' := List.mem_filter.mp hp
    have hq' := List.mem_filter.mp hq
    obtain ⟨hplt, hpval⟩ := mem_enum_getD hp'.1
    obtain ⟨hqlt, hqval⟩ := mem_enum_getD hq'.1
    have hprem : p.1 ∉ fuzzyRemovedSet L A := by simpa using hp'.2
    have hqrem : q.1 ∉ fuzzyRemovedSet L A := by simpa using hq'.2
    constructor
    · rw [hpval, hqval]
      exact fuzzy_no_match_of_survivors L A hpq hqlt hprem hqrem
        (hpval ▸ hpA) (hqval ▸ hqA)
    · rw [hpval, hqval]
      intro hm
      exact fuzzy_no_match_of_survivors L A hpq hqlt hprem hqrem
        (hpval ▸ hpA) (hqval ▸ hqA) (fuzzyMatch_comm.mp hm)

/-- C4: in the inner loop, a pair `(i, j)` that is unremoved,
non-archived on both sides, and passes both thresholds, is resolved by
the tie-break: if `listings[j].date_added >= listings[i].date_added`
then `i` is removed and the loop over further `j` stops; otherwise `j`
is removed and the loop continues with the next `j`. -/
theorem fuzzy_pair_step (L : List JobListing) (A : List String) (i j : Nat)
    (js : List Nat) (rem : Finset Nat) (r : Nat)
    (hij : i < j) (hir : i ∉ rem) (hjr : j ∉ rem)
    (hiA : (L.getD i default).id ∉ A) (hjA : (L.getD j default).id ∉ A)
    (hmatch : fuzzyMatch (L.getD i default) (L.getD j default)) :
    innerLoop L A i (j :: js) (rem, r) =
      if (L.getD j default).date_added ≥ (L.getD i default).date_added
      then (insert i rem, r + 1)
      else innerLoop L A i js (insert j rem, r + 1) := by
  obtain ⟨h90, h08⟩ := hmatch
  simp only [innerLoop]
  rw [if_neg hjr, if_neg hjA, if_neg (not_le.mpr h90), if_neg (not_le.mpr h08)]

/-- Witness for C4 at a concrete input: a matching pair whose second
member is newer removes the first member and stops the inner loop. -/
theorem fuzzy_pair_step_witness :
    innerLoop [exOld, exNew] [] 0 [1] (∅, 0) = ({0}, 1) := by
  have hov : compute_token_overlap "SWE Intern" "SWE Intern" = 1 :=
    compute_token_overlap_self _ (by decide)
  have hm : fuzzyMatch ([exOld, exNew].getD 0 default) ([exOld, exNew].getD 1 default) := by
    constructor
    · decide
    · show (0.8 : ℚ) < compute_token_overlap "SWE Intern" "SWE Intern"
      rw [hov]
      norm_num
  have h := fuzzy_pair_step [exOld, exNew] [] 0 1 [] ∅ 0 (by decide) (by decide)
    (by decide) (by decide) (by decide) hm
  rw [h, if_pos (by decide :
    ([exOld, exNew].getD 1 default).date_added ≥ ([exOld, exNew].getD 0 default).date_added)]
  decide

/-- C5: a listing whose id is archived is never removed by the fuzzy
stage (it survives verbatim), and the concrete exemption case: two
listings with company similarity 100 and role overlap 1, one of them
archived, are both returned unchanged with removal count 0. -/
theorem fuzzy_archived_exempt (L : List JobListing) (A : List String) :
    (∀ i : Nat, i < L.length → (L.getD i default).id ∈ A →
      i ∉ fuzzyRemovedSet L A ∧ L.getD i default ∈ (dedup_fuzzy L A).1)
    ∧ fuzz_ratio_score (pyLower exArchived.company) (pyLower exFresh.company) = 100
    ∧ compute_token_overlap exArchived.role exFresh.role = 1
    ∧ dedup_fuzzy [exArchived, exFresh] [exArchived.id] = ([exArchived, exFresh], 0) := by
  refine ⟨?_, by decide, compute_token_overlap_self _ (by decide), by decide⟩
  intro i hi hiA
  have hrem : i ∉ fuzzyRemovedSet L A :=
    outerLoop_arch_free L A (List.range L.length) (∅, 0) i hiA (by simp)
  refine ⟨hrem, ?_⟩
  by_cases hlen : L.length ≤ 1
  · unfold dedup_fuzzy
    rw [if_pos hlen]
    show L.getD i default ∈ L
    rw [List.getD_eq_getElem L default hi]
    exact List.getElem_mem hi
  · unfold dedup_fuzzy
    rw [if_neg hlen]
    show L.getD i default ∈ (L.enum.filter (fun p => p.1 ∉ fuzzyRemovedSet L A)).map Prod.snd
    refine List.mem_map.mpr ⟨(i, L.getD i default), ?_, rfl⟩
    refine List.mem_filter.mpr ⟨?_, ?_⟩
    · rw [List.mem_enum_iff_getElem?]
      show L[i]? = some (L.getD i default)
      rw [List.getD_eq_getElem L default hi]
      exact List.getElem?_eq_getElem hi
    · simpa using hrem

/-- Witness for C5 at a concrete input: the archived listing of the
two-listing example is not removed and survives. -/
theorem fuzzy_archived_exempt_witness :
    0 ∉ fuzzyRemovedSet [exArchived, exFresh] [exArchived.id]
    ∧ exArchived ∈ (dedup_fuzzy [exArchived, exFresh] [exArchived.id]).1 :=
  (fuzzy_archived_exempt [exArchived, exFresh] [exArchived.id]).1 0 (by decide) (by decide)

/-- C9: for each of the three stages, the returned removal count equals
the input length minus the output length. -/
theorem stage_removed_counts (l : List JobListing) (A : List String) :
    (dedup_by_content_hash l).2 = l.length - (dedup_by_content_hash l).1.length
    ∧ (dedup_by_url l).2 = l.length - (dedup_by_url l).1.length
    ∧ (dedup_fuzzy l A).2 = l.length - (dedup_fuzzy l A).1.length := by
  have h1 : (dedup_by_content_hash l).1.length + (dedup_by_content_hash l).2 = l.length :=
    dedupByKey_length_add (fun y => y.id) l
  have h2 : (dedup_by_url l).1.length + (dedup_by_url l).2 = l.length :=
    dedupByKey_length_add (fun y => y.apply_url) l
  have h3 := dedup_fuzzy_count l A
  exact ⟨by omega, by omega, by omega⟩

/-- C10: the fuzzy stage's output is a subsequence of its input (records
unmodified, relative order preserved), while the hash stage may reorder:
in the concrete run the newer duplicate takes the first occurrence's
position, overtaking a listing that preceded it in the input. -/
theorem fuzzy_stage_sublist (L : List JobListing) (A : List String) :
    (dedup_fuzzy L A).1.Sublist L
    ∧ (dedup_by_content_hash [exListingJan, exUrlNoSlash, exListingFeb]).1 =
        [exListingFeb, exUrlNoSlash] := by
  constructor
  · by_cases hlen : L.length ≤ 1
    · unfold dedup_fuzzy
      rw [if_pos hlen]
    · unfold dedup_fuzzy
      rw [if_neg hlen]
      show ((L.enum.filter (fun p => p.1 ∉ fuzzyRemovedSet L A)).map Prod.snd).Sublist L
      have h1 : (L.enum.filter (fun p => p.1 ∉ fuzzyRemovedSet L A)).Sublist L.enum :=
        List.filter_sublist _
      have h2 := h1.map Prod.snd
      rw [List.enum_map_snd] at h2
      exact h2
  · decide

/-! ### Token-overlap scorer facts -/

/-- With an empty token union the scorer returns `0`. -/
lemma compute_token_overlap_zero (a b : String) (h : tokenSet a ∪ tokenSet b = ∅) :
    compute_token_overlap a b = 0 := by
  obtain ⟨ha, hb⟩ := Finset.union_eq_empty.mp h
  simp only [compute_token_overlap]
  rw [if_pos (And.intro ha hb)]

/-- With a non-empty token union the scorer is the Jaccard quotient. -/
lemma compute_token_overlap_eq (a b : String) (h : tokenSet a ∪ tokenSet b ≠ ∅) :
    compute_token_overlap a b =
      ((tokenSet a ∩ tokenSet b).card : ℚ) / ((tokenSet a ∪ tokenSet b).card : ℚ) := by
  simp only [compute_token_overlap]
  rw [if_neg (show ¬(tokenSet a = ∅ ∧ tokenSet b = ∅) from
    fun h' => h (by rw [h'.1, h'.2]; simp)), if_neg h]

/-- C6: the token-overlap scorer returns the Jaccard quotient
`|intersection| / |union|` of the lowercased whitespace-token sets, a
value in `[0, 1]`; it returns exactly `0` when the union is empty, `1`
for two identical strings with at least one token, and the concrete
boundary values `0`, `1`, and `1/2` of the spec's examples. -/
theorem token_overlap_correct (a b : String) :
    (0 ≤ compute_token_overlap a b ∧ compute_token_overlap a b ≤ 1)
    ∧ (tokenSet a ∪ tokenSet b = ∅ → compute_token_overlap a b = 0)
    ∧ (tokenSet a ∪ tokenSet b ≠ ∅ →
        compute_token_overlap a b =
          ((tokenSet a ∩ tokenSet b).card : ℚ) / ((tokenSet a ∪ tokenSet b).card : ℚ))
    ∧ (a = b → tokenSet a ≠ ∅ → compute_token_overlap a b = 1)
    ∧ compute_token_overlap "" "" = 0
    ∧ compute_token_overlap "Software Engineer Intern" "Software Engineer Intern" = 1
    ∧ compute_token_overlap "Software Engineer Intern" "Software Engineer Co-op" = 1 / 2 := by
  refine ⟨?_, compute_token_overlap_zero a b, compute_token_overlap_eq a b, ?_, ?_, ?_, ?_⟩
  · by_cases hu : tokenSet a ∪ tokenSet b = ∅
    · rw [compute_token_overlap_zero a b hu]
      norm_num
    · rw [compute_token_overlap_eq a b hu]
      have hpos : 0 < ((tokenSet a ∪ tokenSet b).card : ℚ) := by
        have hc := Finset.card_pos.mpr (Finset.nonempty_iff_ne_empty.mpr hu)
        exact_mod_cast hc
      constructor
      · exact div_nonneg (Nat.cast_nonneg _) hpos.le
      · rw [div_le_one hpos]
        exact_mod_cast Finset.card_le_card
          ((Finset.inter_subset_left).trans Finset.subset_union_left)
  · rintro rfl h
    exact compute_token_overlap_self a h
  · exact compute_token_overlap_zero "" "" (by decide)
  · exact compute_token_overlap_self _ (by decide)
  · have hne : ¬(tokenSet "Software Engineer Intern" = ∅ ∧
        tokenSet "Software Engineer Co-op" = ∅) := by decide
    have hu : ¬(tokenSet "Software Engineer Intern" ∪ tokenSet "Software Engineer Co-op" = ∅) :=
      by decide
    have hc1 : (tokenSet "Software Engineer Intern" ∩
        tokenSet "Software Engineer Co-op").card = 2 := by decide
    have hc2 : (tokenSet "Software Engineer Intern" ∪
        tokenSet "Software Engineer Co-op").card = 4 := by decide
    simp only [compute_token_overlap]
    rw [if_neg hne, if_neg hu, hc1, hc2]
    norm_num

/-- Witness for C6 at a concrete input: two identical one-token strings
score `1`. -/
theorem token_overlap_correct_witness :
    compute_token_overlap "Intern" "Intern" = 1 :=
  (token_overlap_correct "Intern" "Intern").2.2.2.1 rfl (by decide)

/-! ### Orchestrator facts -/

/-- First listing of the hash-removal scenario: duplicated id `A`. -/
def cexA1 : JobListing :=
  { id := "A", company := "Acme", role := "SWE Intern",
    apply_url := "https://jobs.example/1", date_added := 20260101 }

/-- Second listing of the hash-removal scenario: same id `A`, newer. -/
def cexA2 : JobListing :=
  { id := "A", company := "Acme", role := "SWE Intern",
    apply_url := "https://jobs.example/2", date_added := 20260102 }

/-- Listing of the URL-removal scenario: distinct id but the same
`apply_url` as `cexA2`. -/
def cexB : JobListing :=
  { id := "B", company := "Beta", role := "Data Intern",
    apply_url := "https://jobs.example/2", date_added := 20260101 }

/-- Counterexample for C2: two inputs whose individual stage removal
counts differ — `(hash, url, fuzzy) = (1, 0, 0)` versus `(0, 1, 0)` —
produce identical orchestrator results, so the value `deduplicate_all`
returns cannot contain the three individual counts; it carries only the
final list and the total. -/
theorem deduplicate_all_only_total :
    deduplicate_all [cexA1, cexA2] [] = deduplicate_all [cexB, cexA2] []
    ∧ (dedup_by_content_hash [cexA1, cexA2]).2 = 1
    ∧ (dedup_by_url (dedup_by_content_hash [cexA1, cexA2]).1).2 = 0
    ∧ (dedup_fuzzy (dedup_by_url (dedup_by_content_hash [cexA1, cexA2]).1).1 []).2 = 0
    ∧ (dedup_by_content_hash [cexB, cexA2]).2 = 0
    ∧ (dedup_by_url (dedup_by_content_hash [cexB, cexA2]).1).2 = 1
    ∧ (dedup_fuzzy (dedup_by_url (dedup_by_content_hash [cexB, cexA2]).1).1 []).2 = 0 := by
  decide

/-- C2 (amended): the orchestrator runs the content-hash, URL, and fuzzy
stages in that fixed order, each on the previous stage's output, and
returns the final surviving list together with only the total removed
count — the sum of the three individual stage counts, which is also
exactly the input length minus the final output length. -/
theorem deduplicate_all_pipeline (l : List JobListing) (A : List String) :
    (deduplicate_all l A).1 = (dedup_fuzzy (dedup_by_url (dedup_by_content_hash l).1).1 A).1
    ∧ (deduplicate_all l A).2 =
        (dedup_by_content_hash l).2 + (dedup_by_url (dedup_by_content_hash l).1).2 +
          (dedup_fuzzy (dedup_by_url (dedup_by_content_hash l).1).1 A).2
    ∧ (deduplicate_all l A).1.length + (deduplicate_all l A).2 = l.length := by
  by_cases h : l = []
  · subst h
    exact ⟨rfl, rfl, rfl⟩
  · have h1 : deduplicate_all l A =
        ((dedup_fuzzy (dedup_by_url (dedup_by_content_hash l).1).1 A).1,
          (dedup_by_content_hash l).2 + (dedup_by_url (dedup_by_content_hash l).1).2 +
            (dedup_fuzzy (dedup_by_url (dedup_by_content_hash l).1).1 A).2) := by
      simp only [deduplicate_all, if_neg h]
    have c1 : (dedup_by_content_hash l).1.length + (dedup_by_content_hash l).2 = l.length :=
      dedupByKey_length_add (fun y => y.id) l
    have c2 : (dedup_by_url (dedup_by_content_hash l).1).1.length +
        (dedup_by_url (dedup_by_content_hash l).1).2 = (dedup_by_content_hash l).1.length :=
      dedupByKey_length_add (fun y => y.apply_url) _
    have c3 := dedup_fuzzy_count (dedup_by_url (dedup_by_content_hash l).1).1 A
    refine ⟨by rw [h1], by rw [h1], ?_⟩
    rw [h1]
    simp only
    omega
